import Mathlib

/-!
Verification of the polynomial-regression core (`regressionService` plus the
formula formatter and the auto-mode caller) against its specification.

The numeric type of the source (IEEE doubles) is modelled by exact rationals
`ℚ`; `Infinity` and `-Infinity`, which the degree sweep uses as sentinel
scores, are modelled by `EReal` (scores involve `Math.log`, hence live in
`ℝ`).  A thrown exception is modelled by `Option`/`Except`: `none` or
`.error` is the exceptional return.

Matrices are total functions out of `Fin`; the augmented matrix of the
Gaussian-elimination solver has `n` rows and `n + 1` columns, its last column
being the augmented right-hand side.
-/

namespace PolyReg

/-- The fixed absolute pivot tolerance `1e-10` of `solveLinearSystem`. -/
def pivotTol : ℚ := 1 / 10 ^ 10

/-- The near-perfect-fit threshold `1e-10` of `findBestFitPolynomial`. -/
def rssTol : ℚ := 1 / 10 ^ 10

/-- The zero / unit-coefficient threshold `1e-9` of the formula formatter. -/
def zeroEps : ℚ := 1 / 10 ^ 9

section Solver

variable {n : ℕ}

/-- The pivot search of `solveLinearSystem`: starting from `maxRow = i`, scan
rows `k = i+1, …, n-1` in order and replace the candidate whenever
`|m[k][i]| > |m[maxRow][i]|` (strict, so the first row attaining the maximum
is kept). -/
def findPivotRow (m : Fin n → Fin (n + 1) → ℚ) (i : Fin n) : Fin n :=
  ((List.finRange n).drop ((i : ℕ) + 1)).foldl
    (fun maxRow k => if |m k i.castSucc| > |m maxRow i.castSucc| then k else maxRow) i

/-- Row swap `[m[i], m[maxRow]] = [m[maxRow], m[i]]`. -/
def swapRows (m : Fin n → Fin (n + 1) → ℚ) (i p : Fin n) : Fin n → Fin (n + 1) → ℚ :=
  fun r c => m (Equiv.swap i p r) c

/-- `// Make pivot 1`: divide the entries of row `i` in columns `i+1 … n` by
the pivot `m[i][i]` and then overwrite `m[i][i]` with `1`.  Columns left of
the pivot are not touched. -/
def normalizeRow (m : Fin n → Fin (n + 1) → ℚ) (i : Fin n) : Fin n → Fin (n + 1) → ℚ :=
  fun r c =>
    if r = i then
      if (c : ℕ) < (i : ℕ) then m r c
      else if (c : ℕ) = (i : ℕ) then 1
      else m r c / m i i.castSucc
    else m r c

/-- `// Eliminate other rows`: for every row `k ≠ i` subtract
`factor * m[i][j]` from `m[k][j]` for the columns `j = i … n`, where `factor`
is the value of `m[k][i]` before the subtraction. -/
def eliminateCol (m : Fin n → Fin (n + 1) → ℚ) (i : Fin n) : Fin n → Fin (n + 1) → ℚ :=
  fun r c =>
    if r = i then m r c
    else if (c : ℕ) < (i : ℕ) then m r c
    else m r c - m r i.castSucc * m i c

/-- One iteration of the elimination loop of `solveLinearSystem` at pivot
column `i`: pivot search, row swap, singularity check against `pivotTol`
(`none` models the thrown error), normalization, elimination. -/
def gaussStep (m : Fin n → Fin (n + 1) → ℚ) (i : Fin n) :
    Option (Fin n → Fin (n + 1) → ℚ) :=
  if |swapRows m i (findPivotRow m i) i i.castSucc| < pivotTol then none
  else some (eliminateCol (normalizeRow (swapRows m i (findPivotRow m i)) i) i)

/-- The elimination loop run over a list of pivot columns; a failing step
aborts the whole computation (the exception propagates). -/
def gaussList (m : Fin n → Fin (n + 1) → ℚ) :
    List (Fin n) → Option (Fin n → Fin (n + 1) → ℚ)
  | [] => some m
  | i :: rest => (gaussStep m i).bind (fun m' => gaussList m' rest)

/-- The private augmented matrix `m[i] = [...matrixA[i], vectorB[i]]`. -/
def augmented (A : Fin n → Fin n → ℚ) (b : Fin n → ℚ) : Fin n → Fin (n + 1) → ℚ :=
  fun i c => if h : (c : ℕ) < n then A i ⟨c, h⟩ else b i

/-- `solveLinearSystem(matrixA, vectorB)`: build the augmented matrix, run the
elimination loop over all pivot columns `0 … n-1`, and read the solution
entries `solution[i] = m[i][n]` off the augmented column. -/
def solveLinearSystem (A : Fin n → Fin n → ℚ) (b : Fin n → ℚ) : Option (List ℚ) :=
  (gaussList (augmented A b) (List.finRange n)).map
    (fun m => (List.finRange n).map (fun i => m i (Fin.last n)))

end Solver

section Regression

/-- A data point, `{x, y}`. -/
abbrev Point := ℚ × ℚ

/-- The design matrix `X[i][j] = Math.pow(points[i].x, j)`. -/
def designX (points : List Point) (degree : ℕ) : Fin points.length → Fin (degree + 1) → ℚ :=
  fun i j => (points.get i).1 ^ (j : ℕ)

/-- The target vector `Y = points.map(p => p.y)`. -/
def vecY (points : List Point) : Fin points.length → ℚ :=
  fun i => (points.get i).2

/-- The Gram matrix `XtX[i][j] = Σ_k Xt[i][k]·X[k][j]`, with the transpose
`Xt[i][k] = X[k][i]` substituted in. -/
def gramXtX (points : List Point) (degree : ℕ) : Fin (degree + 1) → Fin (degree + 1) → ℚ :=
  fun i j => ∑ k, designX points degree k i * designX points degree k j

/-- The moment vector `XtY[i] = Σ_j Xt[i][j]·Y[j]`, with the transpose
substituted in. -/
def momXtY (points : List Point) (degree : ℕ) : Fin (degree + 1) → ℚ :=
  fun i => ∑ j, designX points degree j i * vecY points j

/-- `calculatePolynomialRegression(points, degree)`: build the design matrix
`X`, the normal-equation data `XtX` and `XtY`, and hand `XtX · c = XtY` to
`solveLinearSystem`. -/
def calculatePolynomialRegression (points : List Point) (degree : ℕ) : Option (List ℚ) :=
  solveLinearSystem (gramXtX points degree) (momXtY points degree)

/-- `evaluatePolynomial(coefficients, x) = Σ_i coefficients[i] * x^i`,
accumulated left to right as in the source loop. -/
def evaluatePolynomial (coefficients : List ℚ) (x : ℚ) : ℚ :=
  coefficients.enum.foldl (fun result p => result + p.2 * x ^ p.1) 0

/-- The residual sum of squares accumulated by `findBestFitPolynomial`:
`rss += (point.y - predictedY)^2` over the points in order. -/
def rssOf (points : List Point) (coefficients : List ℚ) : ℚ :=
  points.foldl (fun rss p => rss + (p.2 - evaluatePolynomial coefficients p.1) ^ 2) 0

end Regression

section SolverProofs

variable {n : ℕ}

/-- The solution set of an augmented system: `x` solves every row equation
`Σ_j m[r][j]·x[j] = m[r][n]`. -/
def InSols (m : Fin n → Fin (n + 1) → ℚ) (x : Fin n → ℚ) : Prop :=
  ∀ r : Fin n, ∑ j : Fin n, m r j.castSucc * x j = m r (Fin.last n)

/-- The first `k` columns of the augmented matrix are in reduced form: they
agree with the identity matrix. -/
def RedCols (k : ℕ) (m : Fin n → Fin (n + 1) → ℚ) : Prop :=
  ∀ (r : Fin n) (c : Fin n), (c : ℕ) < k →
    m r c.castSucc = if (r : ℕ) = (c : ℕ) then 1 else 0

lemma pivot_foldl_spec (m : Fin n → Fin (n + 1) → ℚ) (i : Fin n) (l : List (Fin n))
    (acc : Fin n) :
    (l.foldl (fun maxRow k =>
        if |m k i.castSucc| > |m maxRow i.castSucc| then k else maxRow) acc = acc ∨
      l.foldl (fun maxRow k =>
        if |m k i.castSucc| > |m maxRow i.castSucc| then k else maxRow) acc ∈ l) ∧
    |m acc i.castSucc| ≤
      |m (l.foldl (fun maxRow k =>
        if |m k i.castSucc| > |m maxRow i.castSucc| then k else maxRow) acc) i.castSucc| ∧
    ∀ k ∈ l, |m k i.castSucc| ≤
      |m (l.foldl (fun maxRow k =>
        if |m k i.castSucc| > |m maxRow i.castSucc| then k else maxRow) acc) i.castSucc| := by
  induction l generalizing acc with
  | nil => exact ⟨Or.inl rfl, le_refl _, by simp⟩
  | cons a t ih =>
    simp only [List.foldl_cons]
    set acc' := if |m a i.castSucc| > |m acc i.castSucc| then a else acc with hacc'
    obtain ⟨hmem, hle, hall⟩ := ih acc'
    have hacc_le : |m acc i.castSucc| ≤ |m acc' i.castSucc| := by
      rw [hacc']; split
      · exact le_of_lt (by assumption)
      · exact le_refl _
    have ha_le : |m a i.castSucc| ≤ |m acc' i.castSucc| := by
      rw [hacc']; split
      · exact le_refl _
      · exact le_of_not_lt (by assumption)
    refine ⟨?_, le_trans hacc_le hle, ?_⟩
    · rcases hmem with h | h
      · rw [h, hacc']; split
        · exact Or.inr (List.mem_cons_self _ _)
        · exact Or.inl rfl
      · exact Or.inr (List.mem_cons_of_mem _ h)
    · intro k hk
      rcases List.mem_cons.mp hk with rfl | hk
      · exact le_trans ha_le hle
      · exact hall k hk

lemma mem_drop_finRange {m : ℕ} {k : Fin n} :
    k ∈ (List.finRange n).drop m ↔ m ≤ (k : ℕ) := by
  constructor
  · intro hk
    obtain ⟨j, hjk⟩ := List.mem_iff_getElem?.mp hk
    rw [List.getElem?_drop] at hjk
    have hlt : m + j < n := by
      by_contra hge
      rw [List.getElem?_eq_none (by simpa using not_lt.mp hge)] at hjk
      exact Option.noConfusion hjk
    rw [List.getElem?_eq_getElem (by simpa using hlt)] at hjk
    have hval := congrArg Fin.val (Option.some_inj.mp hjk)
    rw [List.getElem_finRange] at hval
    simp only [Fin.coe_cast] at hval
    omega
  · intro hmk
    refine List.mem_iff_getElem?.mpr ⟨(k : ℕ) - m, ?_⟩
    rw [List.getElem?_drop]
    have hlt : m + ((k : ℕ) - m) < n := by
      have := k.isLt
      omega
    rw [List.getElem?_eq_getElem (by simpa using hlt), List.getElem_finRange]
    refine congrArg some (Fin.ext ?_)
    simp only [Fin.coe_cast]
    omega

lemma findPivotRow_ge (m : Fin n → Fin (n + 1) → ℚ) (i : Fin n) :
    (i : ℕ) ≤ (findPivotRow m i : ℕ) := by
  obtain ⟨hmem, -, -⟩ := pivot_foldl_spec m i ((List.finRange n).drop ((i : ℕ) + 1)) i
  rcases hmem with h | h
  · rw [findPivotRow, h]
  · have := mem_drop_finRange.mp (by exact h)
    rw [findPivotRow]
    omega

lemma findPivotRow_max (m : Fin n → Fin (n + 1) → ℚ) (i k : Fin n) (hik : (i : ℕ) ≤ (k : ℕ)) :
    |m k i.castSucc| ≤ |m (findPivotRow m i) i.castSucc| := by
  obtain ⟨-, hacc, hall⟩ := pivot_foldl_spec m i ((List.finRange n).drop ((i : ℕ) + 1)) i
  rcases eq_or_lt_of_le hik with h | h
  · have : k = i := Fin.ext h.symm
    rw [this]; exact hacc
  · exact hall k (mem_drop_finRange.mpr h)

lemma insols_swapRows (m : Fin n → Fin (n + 1) → ℚ) (i p : Fin n) (x : Fin n → ℚ) :
    InSols (swapRows m i p) x ↔ InSols m x := by
  unfold InSols swapRows
  exact (Equiv.swap i p).forall_congr (by intro r; rfl)

lemma redCols_swapRows {m : Fin n → Fin (n + 1) → ℚ} {i p : Fin n} (hip : (i : ℕ) ≤ (p : ℕ))
    (hred : RedCols (i : ℕ) m) : RedCols (i : ℕ) (swapRows m i p) := by
  intro r c hc
  unfold swapRows
  rw [hred _ c hc]
  rcases eq_or_ne r i with rfl | hri
  · rw [Equiv.swap_apply_left]
    have : ¬ (r : ℕ) = (c : ℕ) := by omega
    have hpc : ¬ (p : ℕ) = (c : ℕ) := by omega
    simp [this, hpc]
  · rcases eq_or_ne r p with rfl | hrp
    · rw [Equiv.swap_apply_right]
      have hic : ¬ (i : ℕ) = (c : ℕ) := by omega
      have hpc : ¬ (r : ℕ) = (c : ℕ) := by omega
      simp [hic, hpc]
    · rw [Equiv.swap_apply_of_ne_of_ne hri hrp]

lemma normalizeRow_row_eq {m : Fin n → Fin (n + 1) → ℚ} {i : Fin n}
    (hred : RedCols (i : ℕ) m) (hpiv : m i i.castSucc ≠ 0) (c : Fin (n + 1)) :
    normalizeRow m i i c = (m i i.castSucc)⁻¹ * m i c := by
  unfold normalizeRow
  split_ifs with h1 h2 h3
  · -- (c : ℕ) < (i : ℕ): this column of row i is 0 by the invariant
    have hc : (c : ℕ) < n := by omega
    have hzero : m i c = 0 := by
      have h4 := hred i ⟨(c : ℕ), hc⟩ h2
      have hcast : Fin.castSucc ⟨(c : ℕ), hc⟩ = c := by ext; rfl
      rw [hcast] at h4
      simp only [Fin.val_mk] at h4
      rw [h4, if_neg (by omega)]
    rw [hzero, mul_zero]
  · -- (c : ℕ) = (i : ℕ): the pivot column
    have hcast : c = i.castSucc := by ext; simpa using h3
    rw [hcast, inv_mul_cancel₀ hpiv]
  · exact div_eq_inv_mul _ _
  · exact absurd rfl h1

lemma insols_normalizeRow {m : Fin n → Fin (n + 1) → ℚ} {i : Fin n}
    (hred : RedCols (i : ℕ) m) (hpiv : m i i.castSucc ≠ 0) (x : Fin n → ℚ) :
    InSols (normalizeRow m i) x ↔ InSols m x := by
  have hrow := normalizeRow_row_eq hred hpiv
  have hother : ∀ r, r ≠ i → ∀ c, normalizeRow m i r c = m r c := by
    intro r hr c
    unfold normalizeRow
    rw [if_neg hr]
  have hsum : (∑ j : Fin n, (m i i.castSucc)⁻¹ * m i j.castSucc * x j) =
      (m i i.castSucc)⁻¹ * ∑ j : Fin n, m i j.castSucc * x j := by
    rw [Finset.mul_sum]
    exact Finset.sum_congr rfl (fun j _ => by ring)
  constructor
  · intro hx r
    rcases eq_or_ne r i with rfl | hr
    · have h1 := hx r
      simp only [hrow] at h1
      rw [hsum] at h1
      exact mul_left_cancel₀ (inv_ne_zero hpiv) h1
    · have := hx r
      simpa only [hother r hr] using this
  · intro hx r
    rcases eq_or_ne r i with rfl | hr
    · simp only [hrow]
      rw [hsum, hx r]
    · simp only [hother r hr]
      exact hx r

lemma redCols_normalizeRow {m : Fin n → Fin (n + 1) → ℚ} {i : Fin n}
    (hred : RedCols (i : ℕ) m) : RedCols (i : ℕ) (normalizeRow m i) := by
  intro r c hc
  unfold normalizeRow
  rcases eq_or_ne r i with rfl | hr
  · rw [if_pos rfl, if_pos (by simpa using hc)]
    exact hred r c hc
  · rw [if_neg hr]
    exact hred r c hc

lemma normalizeRow_pivot {m : Fin n → Fin (n + 1) → ℚ} {i : Fin n} :
    normalizeRow m i i i.castSucc = 1 := by
  unfold normalizeRow
  rw [if_pos rfl, if_neg (by simp), if_pos (by simp)]

lemma eliminateCol_apply {m : Fin n → Fin (n + 1) → ℚ} {i : Fin n}
    (hzero : ∀ c : Fin (n + 1), (c : ℕ) < (i : ℕ) → m i c = 0) (r : Fin n) (c : Fin (n + 1)) :
    eliminateCol m i r c = if r = i then m r c else m r c - m r i.castSucc * m i c := by
  unfold eliminateCol
  rcases eq_or_ne r i with rfl | hr
  · simp
  · rw [if_neg hr, if_neg hr]
    split
    · rw [hzero c (by assumption), mul_zero, sub_zero]
    · rfl

lemma insols_eliminateCol {m : Fin n → Fin (n + 1) → ℚ} {i : Fin n}
    (hzero : ∀ c : Fin (n + 1), (c : ℕ) < (i : ℕ) → m i c = 0) (x : Fin n → ℚ) :
    InSols (eliminateCol m i) x ↔ InSols m x := by
  have happ := eliminateCol_apply (m := m) (i := i) hzero
  have hrow_i : ∀ c, eliminateCol m i i c = m i c := by
    intro c; rw [happ i c, if_pos rfl]
  constructor
  · intro hx r
    rcases eq_or_ne r i with rfl | hr
    · have := hx r
      simpa only [hrow_i] using this
    · have hi := hx i
      simp only [hrow_i] at hi
      have hr' := hx r
      simp only [happ r, if_neg hr] at hr'
      simp only [sub_mul, Finset.sum_sub_distrib, mul_assoc, ← Finset.mul_sum] at hr'
      rw [hi] at hr'
      linarith
  · intro hx r
    rcases eq_or_ne r i with rfl | hr
    · simpa only [hrow_i] using hx r
    · simp only [happ r, if_neg hr, sub_mul, Finset.sum_sub_distrib, mul_assoc,
        ← Finset.mul_sum]
      rw [hx i, hx r]

lemma redCols_eliminateCol {m : Fin n → Fin (n + 1) → ℚ} {i : Fin n}
    (hred : RedCols (i : ℕ) m) (hpiv : m i i.castSucc = 1) :
    RedCols ((i : ℕ) + 1) (eliminateCol m i) := by
  intro r c hc
  unfold eliminateCol
  rcases Nat.lt_or_ge (c : ℕ) (i : ℕ) with hci | hci
  · rcases eq_or_ne r i with rfl | hr
    · rw [if_pos rfl]; exact hred r c hci
    · rw [if_neg hr, if_pos (by simpa using hci)]
      exact hred r c hci
  · have hceq : (c : ℕ) = (i : ℕ) := by omega
    have hcast : c.castSucc = i.castSucc := by ext; simpa using hceq
    rcases eq_or_ne r i with rfl | hr
    · rw [if_pos rfl, hcast, hpiv, if_pos (by omega)]
    · rw [if_neg hr, if_neg (by simpa using not_lt.mpr hci), hcast, hpiv, mul_one, sub_self]
      have : ¬ (r : ℕ) = (c : ℕ) := by
        intro h
        exact hr (Fin.ext (by omega))
      rw [if_neg this]

lemma gaussStep_some {m m' : Fin n → Fin (n + 1) → ℚ} {i : Fin n}
    (hred : RedCols (i : ℕ) m) (hstep : gaussStep m i = some m') :
    RedCols ((i : ℕ) + 1) m' ∧ ∀ x, (InSols m' x ↔ InSols m x) := by
  unfold gaussStep at hstep
  set p := findPivotRow m i with hp
  set m1 := swapRows m i p with hm1
  by_cases hpiv : |m1 i i.castSucc| < pivotTol
  · rw [if_pos hpiv] at hstep
    exact absurd hstep (by simp)
  · rw [if_neg hpiv] at hstep
    have hm' : m' = eliminateCol (normalizeRow m1 i) i := (Option.some_inj.mp hstep).symm
    have hpiv0 : m1 i i.castSucc ≠ 0 := by
      intro h0
      rw [h0] at hpiv
      exact hpiv (by norm_num [pivotTol])
    have hred1 : RedCols (i : ℕ) m1 := redCols_swapRows (findPivotRow_ge m i) hred
    have hred2 : RedCols (i : ℕ) (normalizeRow m1 i) := redCols_normalizeRow hred1
    have hzero2 : ∀ c : Fin (n + 1), (c : ℕ) < (i : ℕ) → normalizeRow m1 i i c = 0 := by
      intro c hc
      have hcn : (c : ℕ) < n := by omega
      have h4 := hred2 i ⟨(c : ℕ), hcn⟩ hc
      have hcast : Fin.castSucc ⟨(c : ℕ), hcn⟩ = c := by ext; rfl
      rw [hcast] at h4
      simp only [Fin.val_mk] at h4
      rw [h4, if_neg (by omega)]
    constructor
    · rw [hm']
      exact redCols_eliminateCol hred2 normalizeRow_pivot
    · intro x
      rw [hm']
      rw [insols_eliminateCol hzero2 x, insols_normalizeRow hred1 hpiv0 x,
        insols_swapRows m i p x]

lemma gaussList_nil (m : Fin n → Fin (n + 1) → ℚ) : gaussList m ([] : List (Fin n)) = some m :=
  rfl

lemma gaussList_cons (m : Fin n → Fin (n + 1) → ℚ) (i : Fin n) (l : List (Fin n)) :
    gaussList m (i :: l) = (gaussStep m i).bind (fun m1 => gaussList m1 l) := by
  simp only [gaussList]

lemma gaussList_cons_none {m : Fin n → Fin (n + 1) → ℚ} {i : Fin n}
    (h : gaussStep m i = none) (l : List (Fin n)) : gaussList m (i :: l) = none := by
  rw [gaussList_cons, h, Option.none_bind]

lemma gaussList_cons_some {m m1 : Fin n → Fin (n + 1) → ℚ} {i : Fin n}
    (h : gaussStep m i = some m1) (l : List (Fin n)) :
    gaussList m (i :: l) = gaussList m1 l := by
  rw [gaussList_cons, h, Option.some_bind]

lemma gaussList_finRange_drop :
    ∀ (k : ℕ) (hk : k ≤ n) (m mf : Fin n → Fin (n + 1) → ℚ),
      RedCols k m → gaussList m ((List.finRange n).drop k) = some mf →
      RedCols n mf ∧ ∀ x, (InSols mf x ↔ InSols m x) := by
  intro k
  induction' hn : n - k with d ih generalizing k
  · intro hk m mf hred hrun
    have hkn : k = n := by omega
    subst hkn
    rw [List.drop_eq_nil_of_le (by simp), gaussList_nil] at hrun
    have : m = mf := Option.some_inj.mp hrun
    subst this
    exact ⟨hred, fun x => Iff.rfl⟩
  · intro _hk m mf hred hrun
    have hkn : k < n := by omega
    have hdrop : (List.finRange n).drop k =
        ⟨k, hkn⟩ :: (List.finRange n).drop (k + 1) := by
      have hcons := List.drop_eq_getElem_cons
        (l := List.finRange n) (n := k) (by simpa using hkn)
      rw [hcons, List.getElem_finRange]
      rfl
    rw [hdrop] at hrun
    rcases hstep : gaussStep m ⟨k, hkn⟩ with - | m1
    · rw [gaussList_cons_none hstep] at hrun
      exact absurd hrun (by simp)
    · rw [gaussList_cons_some hstep] at hrun
      obtain ⟨hred1, hsols1⟩ := gaussStep_some (by simpa using hred) hstep
      obtain ⟨hredf, hsolsf⟩ := ih (k + 1) (by omega) (by omega) m1 mf (by simpa using hred1) hrun
      exact ⟨hredf, fun x => (hsolsf x).trans (hsols1 x)⟩

lemma redCols_insols {m : Fin n → Fin (n + 1) → ℚ} (hred : RedCols n m) (x : Fin n → ℚ) :
    InSols m x ↔ ∀ r, x r = m r (Fin.last n) := by
  have hcollapse : ∀ r : Fin n, (∑ j : Fin n, m r j.castSucc * x j) = x r := by
    intro r
    have : ∀ j : Fin n, m r j.castSucc * x j = if r = j then x j else 0 := by
      intro j
      rw [hred r j j.isLt]
      rcases eq_or_ne r j with rfl | hrj
      · simp
      · rw [if_neg (fun h => hrj (Fin.ext h)), if_neg hrj, zero_mul]
    rw [Finset.sum_congr rfl (fun j _ => this j)]
    simp
  unfold InSols
  constructor
  · intro hx r
    rw [← hcollapse r]
    exact hx r
  · intro hx r
    rw [hcollapse r]
    exact hx r

lemma insols_augmented (A : Fin n → Fin n → ℚ) (b : Fin n → ℚ) (x : Fin n → ℚ) :
    InSols (augmented A b) x ↔ ∀ r, ∑ j : Fin n, A r j * x j = b r := by
  unfold InSols augmented
  have h1 : ∀ (r : Fin n) (j : Fin n),
      (if h : ((j.castSucc : Fin (n + 1)) : ℕ) < n then A r ⟨(j.castSucc : ℕ), h⟩ else b r)
        = A r j := by
    intro r j
    rw [dif_pos (by simp)]
    rfl
  have h2 : ∀ r : Fin n,
      (if h : ((Fin.last n : Fin (n + 1)) : ℕ) < n then A r ⟨(Fin.last n : ℕ), h⟩ else b r)
        = b r := by
    intro r
    rw [dif_neg (by simp)]
  constructor
  · intro hx r
    have := hx r
    simp only [h1, h2] at this
    exact this
  · intro hx r
    simp only [h1, h2]
    exact hx r

/-- Whenever `solveLinearSystem` returns a solution list, that list is the
value table of a vector `x` with `A·x = b`. -/
lemma solveLinearSystem_some {A : Fin n → Fin n → ℚ} {b : Fin n → ℚ} {xs : List ℚ}
    (h : solveLinearSystem A b = some xs) :
    ∃ x : Fin n → ℚ, xs = List.ofFn x ∧ ∀ r, ∑ j : Fin n, A r j * x j = b r := by
  unfold solveLinearSystem at h
  obtain ⟨mf, hrun, hxs⟩ := Option.map_eq_some'.mp h
  have hdrop0 : (List.finRange n).drop 0 = List.finRange n := List.drop_zero _
  have hred0 : RedCols 0 (augmented A b) := fun r c hc => absurd hc (Nat.not_lt_zero _)
  obtain ⟨hredf, hsols⟩ := gaussList_finRange_drop 0 (Nat.zero_le n) (augmented A b) mf hred0
    (by rw [hdrop0]; exact hrun)
  refine ⟨fun i => mf i (Fin.last n), ?_, ?_⟩
  · rw [← hxs, List.ofFn_eq_map]
  · have hxf : InSols mf (fun i => mf i (Fin.last n)) :=
      (redCols_insols hredf _).mpr (fun r => rfl)
    have := (hsols _).mp hxf
    exact (insols_augmented A b _).mp this

/-- The matrix after the first `k` pivot steps of the elimination loop
(`none` once some earlier step has thrown). -/
def gaussUpTo (m : Fin n → Fin (n + 1) → ℚ) (k : ℕ) : Option (Fin n → Fin (n + 1) → ℚ) :=
  gaussList m ((List.finRange n).take k)

lemma gaussList_append (m : Fin n → Fin (n + 1) → ℚ) (l1 l2 : List (Fin n)) :
    gaussList m (l1 ++ l2) = (gaussList m l1).bind (fun m1 => gaussList m1 l2) := by
  induction l1 generalizing m with
  | nil => rw [List.nil_append, gaussList_nil, Option.some_bind]
  | cons i t ih =>
    rw [List.cons_append, gaussList_cons, gaussList_cons]
    rcases hstep : gaussStep m i with - | m1
    · simp only [Option.none_bind]
    · simp only [Option.some_bind]
      exact ih m1

lemma gaussUpTo_zero (m : Fin n → Fin (n + 1) → ℚ) : gaussUpTo m 0 = some m := by
  unfold gaussUpTo
  rw [List.take_zero, gaussList_nil]

lemma gaussUpTo_succ (m : Fin n → Fin (n + 1) → ℚ) {k : ℕ} (hk : k < n) :
    gaussUpTo m (k + 1) = (gaussUpTo m k).bind (fun m1 => gaussStep m1 ⟨k, hk⟩) := by
  unfold gaussUpTo
  rw [List.take_succ, gaussList_append]
  have hget : (List.finRange n)[k]? = some ⟨k, hk⟩ := by
    rw [List.getElem?_eq_getElem (by simpa using hk), List.getElem_finRange]
    rfl
  rw [hget]
  rcases hfirst : gaussList m ((List.finRange n).take k) with - | m1
  · rw [Option.none_bind, Option.none_bind]
  · rw [Option.some_bind, Option.some_bind]
    show gaussList m1 [⟨k, hk⟩] = gaussStep m1 ⟨k, hk⟩
    rw [show [(⟨k, hk⟩ : Fin n)] = ⟨k, hk⟩ :: [] from rfl, gaussList_cons]
    rcases hstep : gaussStep m1 ⟨k, hk⟩ with - | m2
    · rw [Option.none_bind]
    · rw [Option.some_bind, gaussList_nil]

lemma gaussStep_none_iff (m : Fin n → Fin (n + 1) → ℚ) (i : Fin n) :
    gaussStep m i = none ↔ |m (findPivotRow m i) i.castSucc| < pivotTol := by
  unfold gaussStep
  have hswap : swapRows m i (findPivotRow m i) i i.castSucc
      = m (findPivotRow m i) i.castSucc := by
    unfold swapRows
    rw [Equiv.swap_apply_left]
  rw [hswap]
  split_ifs with h
  · simp [h]
  · simp [h]

lemma gaussUpTo_none_iff (m : Fin n → Fin (n + 1) → ℚ) :
    ∀ k, k ≤ n → (gaussUpTo m k = none ↔
      ∃ i : Fin n, (i : ℕ) < k ∧ ∃ m', gaussUpTo m (i : ℕ) = some m' ∧ gaussStep m' i = none) := by
  intro k
  induction k with
  | zero =>
    intro _
    rw [gaussUpTo_zero]
    simp
  | succ k ih =>
    intro hk1
    have hk : k < n := by omega
    rw [gaussUpTo_succ m hk]
    rcases hupto : gaussUpTo m k with - | mk
    · rw [Option.none_bind]
      obtain ⟨i, hik, m', hm', hstep⟩ := (ih (by omega)).mp hupto
      constructor
      · intro _
        exact ⟨i, by omega, m', hm', hstep⟩
      · intro _
        rfl
    · rw [Option.some_bind]
      constructor
      · intro hstep
        exact ⟨⟨k, hk⟩, Nat.lt_succ_self k, mk, hupto, hstep⟩
      · rintro ⟨i, hik, m', hm', hstep⟩
        rcases Nat.lt_or_ge (i : ℕ) k with hi | hi
        · have : gaussUpTo m k = none := (ih (by omega)).mpr ⟨i, hi, m', hm', hstep⟩
          rw [this] at hupto
          exact absurd hupto (by simp)
        · have hik' : (i : ℕ) = k := by omega
          have : i = ⟨k, hk⟩ := Fin.ext hik'
          subst this
          rw [hm'] at hupto
          rw [Option.some_inj.mp hupto] at hstep
          exact hstep

lemma solveLinearSystem_none_iff (A : Fin n → Fin n → ℚ) (b : Fin n → ℚ) :
    solveLinearSystem A b = none ↔
      ∃ i : Fin n, ∃ m', gaussUpTo (augmented A b) (i : ℕ) = some m' ∧
        |m' (findPivotRow m' i) i.castSucc| < pivotTol := by
  unfold solveLinearSystem
  rw [Option.map_eq_none']
  have htake : (List.finRange n).take n = List.finRange n :=
    List.take_of_length_le (by simp)
  have : gaussList (augmented A b) (List.finRange n) = gaussUpTo (augmented A b) n := by
    unfold gaussUpTo
    rw [htake]
  rw [this, gaussUpTo_none_iff (augmented A b) n (le_refl n)]
  constructor
  · rintro ⟨i, -, m', hm', hstep⟩
    exact ⟨i, m', hm', (gaussStep_none_iff m' i).mp hstep⟩
  · rintro ⟨i, m', hm', hsmall⟩
    exact ⟨i, i.isLt, m', hm', (gaussStep_none_iff m' i).mpr hsmall⟩

end SolverProofs

section RegressionProofs

lemma foldl_add_eq {α : Type} (f : α → ℚ) (l : List α) (a : ℚ) :
    l.foldl (fun acc p => acc + f p) a = a + (l.map f).sum := by
  induction l generalizing a with
  | nil => simp
  | cons x t ih =>
    rw [List.foldl_cons, ih, List.map_cons, List.sum_cons]
    ring

lemma enum_eq_ofFn (l : List ℚ) :
    l.enum = List.ofFn (fun i : Fin l.length => ((i : ℕ), l.get i)) := by
  apply List.ext_getElem
  · simp
  · intro i h1 h2
    rw [List.getElem_enum, List.getElem_ofFn]
    rfl

lemma evaluatePolynomial_eq_sum (c : List ℚ) (x : ℚ) :
    evaluatePolynomial c x = ∑ j : Fin c.length, c.get j * x ^ (j : ℕ) := by
  unfold evaluatePolynomial
  rw [foldl_add_eq (fun p => p.2 * x ^ p.1) c.enum 0, zero_add, enum_eq_ofFn,
    List.map_ofFn, List.sum_ofFn]
  rfl

lemma rssOf_eq_sum (points : List Point) (c : List ℚ) :
    rssOf points c =
      ∑ i : Fin points.length,
        ((points.get i).2 - evaluatePolynomial c (points.get i).1) ^ 2 := by
  unfold rssOf
  rw [foldl_add_eq (fun p => (p.2 - evaluatePolynomial c p.1) ^ 2) points 0, zero_add]
  rw [show points.map (fun p => (p.2 - evaluatePolynomial c p.1) ^ 2)
      = List.ofFn (fun i : Fin points.length =>
          ((points.get i).2 - evaluatePolynomial c (points.get i).1) ^ 2) from ?_]
  · rw [List.sum_ofFn]
  · apply List.ext_get (by simp)
    intro i h1 h2
    rw [List.get_map, List.get_ofFn]
    rfl

/-- The heart of the least-squares argument: a solution `c` of the normal
equations `Xᵗ·X·c = Xᵗ·y` minimises the residual sum of squares among all
coefficient vectors. -/
lemma normal_equations_minimize {np d : ℕ} (X : Fin np → Fin d → ℚ) (y : Fin np → ℚ)
    (c c' : Fin d → ℚ)
    (hnormal : ∀ j, ∑ k, (∑ i, X i j * X i k) * c k = ∑ i, X i j * y i) :
    ∑ i, (y i - ∑ j, c j * X i j) ^ 2 ≤ ∑ i, (y i - ∑ j, c' j * X i j) ^ 2 := by
  set r : Fin np → ℚ := fun i => y i - ∑ j, c j * X i j with hr
  set e : Fin np → ℚ := fun i => ∑ j, (c' j - c j) * X i j with he
  have hXr : ∀ j, ∑ i, X i j * r i = 0 := by
    intro j
    have expand : ∀ i, X i j * r i = X i j * y i - ∑ k, (X i j * X i k) * c k := by
      intro i
      rw [hr]
      rw [mul_sub]
      congr 1
      rw [Finset.mul_sum]
      exact Finset.sum_congr rfl (fun k _ => by ring)
    rw [Finset.sum_congr rfl (fun i _ => expand i), Finset.sum_sub_distrib]
    rw [Finset.sum_comm]
    have : ∀ k, ∑ i, (X i j * X i k) * c k = (∑ i, X i j * X i k) * c k := by
      intro k
      rw [Finset.sum_mul]
    rw [Finset.sum_congr rfl (fun k _ => this k), hnormal j, sub_self]
  have hcross : ∑ i, r i * e i = 0 := by
    have expand : ∀ i, r i * e i = ∑ j, (c' j - c j) * (X i j * r i) := by
      intro i
      rw [he, Finset.mul_sum]
      exact Finset.sum_congr rfl (fun j _ => by ring)
    rw [Finset.sum_congr rfl (fun i _ => expand i), Finset.sum_comm]
    have inner : ∀ j, ∑ i, (c' j - c j) * (X i j * r i) = 0 := by
      intro j
      rw [← Finset.mul_sum, hXr j, mul_zero]
    rw [Finset.sum_congr rfl (fun j _ => inner j), Finset.sum_const_zero]
  have hdiff : ∀ i, y i - ∑ j, c' j * X i j = r i - e i := by
    intro i
    rw [hr, he]
    simp only
    rw [Finset.sum_congr rfl (fun j _ => sub_mul (c' j) (c j) (X i j)),
      Finset.sum_sub_distrib]
    ring
  calc ∑ i, (y i - ∑ j, c j * X i j) ^ 2
      = ∑ i, r i ^ 2 := rfl
    _ ≤ ∑ i, r i ^ 2 + ∑ i, e i ^ 2 := le_add_of_nonneg_right
        (Finset.sum_nonneg (fun i _ => sq_nonneg _))
    _ = ∑ i, (r i - e i) ^ 2 := by
        have hsq : ∑ i, (r i - e i) ^ 2
            = (∑ i, r i ^ 2) - 2 * (∑ i, r i * e i) + ∑ i, e i ^ 2 := by
          rw [Finset.sum_congr rfl (fun i _ =>
            show (r i - e i) ^ 2 = r i ^ 2 - 2 * (r i * e i) + e i ^ 2 from by ring)]
          rw [Finset.sum_add_distrib, Finset.sum_sub_distrib, Finset.mul_sum]
        rw [hsq, hcross, mul_zero, sub_zero]
    _ = ∑ i, (y i - ∑ j, c' j * X i j) ^ 2 :=
        Finset.sum_congr rfl (fun i _ => by rw [hdiff i])

lemma evaluatePolynomial_len_eq_sum {cs : List ℚ} {d : ℕ} (hlen : cs.length = d + 1)
    (x : ℚ) :
    evaluatePolynomial cs x
      = ∑ j : Fin (d + 1), cs.get (Fin.cast hlen.symm j) * x ^ (j : ℕ) := by
  rw [evaluatePolynomial_eq_sum]
  refine Fintype.sum_equiv (finCongr hlen) _ _ (fun j => ?_)
  congr 1

lemma rssOf_eq_fin (points : List Point) {cs : List ℚ} {d : ℕ} (hlen : cs.length = d + 1) :
    rssOf points cs = ∑ i : Fin points.length,
      (vecY points i - ∑ j : Fin (d + 1),
        cs.get (Fin.cast hlen.symm j) * designX points d i j) ^ 2 := by
  rw [rssOf_eq_sum]
  refine Finset.sum_congr rfl (fun i _ => ?_)
  rw [evaluatePolynomial_len_eq_sum hlen]
  rfl

lemma get_ofFn_cast {d : ℕ} (c : Fin (d + 1) → ℚ) (hlen : (List.ofFn c).length = d + 1)
    (j : Fin (d + 1)) : (List.ofFn c).get (Fin.cast hlen.symm j) = c j := by
  rw [List.get_ofFn]
  congr 1

/-- The contract of `calculatePolynomialRegression` whenever it returns: the
list has length `degree + 1`, is a solution of the normal equations, and
minimises the residual sum of squares among all coefficient lists of that
length. -/
lemma calcReg_spec {points : List Point} {d : ℕ} {cs : List ℚ}
    (h : calculatePolynomialRegression points d = some cs) :
    cs.length = d + 1 ∧
    (∃ c : Fin (d + 1) → ℚ, cs = List.ofFn c ∧
      ∀ j, ∑ k, gramXtX points d j k * c k = momXtY points d j) ∧
    ∀ cs' : List ℚ, cs'.length = d + 1 → rssOf points cs ≤ rssOf points cs' := by
  unfold calculatePolynomialRegression at h
  obtain ⟨c, hcs, heq⟩ := solveLinearSystem_some h
  have hlen : cs.length = d + 1 := by rw [hcs, List.length_ofFn]
  refine ⟨hlen, ⟨c, hcs, heq⟩, ?_⟩
  intro cs' hlen'
  rw [rssOf_eq_fin points hlen, rssOf_eq_fin points hlen']
  have hc : ∀ j, cs.get (Fin.cast hlen.symm j) = c j := by
    intro j
    subst hcs
    exact get_ofFn_cast c hlen j
  simp only [hc]
  refine normal_equations_minimize (designX points d) (vecY points) c
    (fun j => cs'.get (Fin.cast hlen'.symm j)) (fun j => ?_)
  exact heq j

end RegressionProofs

section Sweep

/-- The degree-selection criterion of the automatic mode. -/
inductive AutoFitMethod
  | BIC
  | AIC
deriving DecidableEq

/-- The typed errors of the fitting layer (the source throws `Error`s with
messages; the spec names them `InsufficientDataError` and
`NoModelFoundError`). -/
inductive FitError
  | insufficientData
  | noModelFound
deriving DecidableEq

/-- The information-criterion score of `findBestFitPolynomial`:
`n·ln(rss/n) + 2k` for AIC, `n·ln(rss/n) + k·ln(n)` for BIC (the default
branch of the source's `if`). -/
noncomputable def scoreOf (method : AutoFitMethod) (n : ℕ) (rss : ℚ) (k : ℕ) : ℝ :=
  if method = .AIC then (n : ℝ) * Real.log ((rss : ℝ) / (n : ℝ)) + 2 * (k : ℝ)
  else (n : ℝ) * Real.log ((rss : ℝ) / (n : ℝ)) + (k : ℝ) * Real.log (n : ℝ)

/-- The running state of the degree sweep: `bestScore` starts at `Infinity`
(modelled `⊤ : EReal`), `bestDegree` at `-1`, `bestCoefficients` at `[]`. -/
structure SweepState where
  bestScore : EReal
  bestDegree : ℤ
  bestCoefficients : List ℚ

/-- `bestScore = Infinity`, `bestDegree = -1`, `bestCoefficients = []`. -/
def sweepInit : SweepState := ⟨⊤, -1, []⟩

/-- One iteration of the degree loop of `findBestFitPolynomial`: a failed
regression (the `catch`) leaves the state unchanged; a near-perfect fit
(`rss ≤ 1e-10`) is accepted with score `-Infinity` (modelled `⊥ : EReal`)
only if no degree has been accepted yet; otherwise the AIC/BIC score is
compared strictly against the best score so far. -/
noncomputable def sweepStep (points : List Point) (method : AutoFitMethod)
    (st : SweepState) (degree : ℕ) : SweepState :=
  match calculatePolynomialRegression points degree with
  | none => st
  | some coefficients =>
    let rss := rssOf points coefficients
    if rss ≤ rssTol then
      if st.bestDegree = -1 then ⟨⊥, (degree : ℤ), coefficients⟩ else st
    else
      let score := scoreOf method points.length rss (degree + 1)
      if (score : EReal) < st.bestScore then ⟨(score : EReal), (degree : ℤ), coefficients⟩
      else st

/-- The candidate degrees `1, 2, …, min(20, n − 1)` tested in ascending
order. -/
def candidateDegrees (n : ℕ) : List ℕ := List.range' 1 (min 20 (n - 1))

/-- `findBestFitPolynomial(points, method)`: throw `InsufficientDataError`
when the candidate range `1 … min(20, n−1)` is empty, run the sweep, throw
`NoModelFoundError` when no degree was accepted, and otherwise return the
best degree with its coefficients. -/
noncomputable def findBestFitPolynomial (points : List Point) (method : AutoFitMethod) :
    Except FitError (ℤ × List ℚ) :=
  if min 20 (points.length - 1) < 1 then .error .insufficientData
  else
    let final := (candidateDegrees points.length).foldl (sweepStep points method) sweepInit
    if final.bestDegree = -1 then .error .noModelFound
    else .ok (final.bestDegree, final.bestCoefficients)

/-- The automatic branch of `handleTrain` in `App.tsx`: fewer than 2 parsed
points throw before `findBestFitPolynomial` is ever invoked. -/
noncomputable def handleTrainAuto (points : List Point) (method : AutoFitMethod) :
    Except FitError (ℤ × List ℚ) :=
  if points.length < 2 then .error .insufficientData
  else findBestFitPolynomial points method

end Sweep

section Formatter

/-- The decimal-digit string of a natural number. -/
def natStr (m : ℕ) : String := String.mk (Nat.toDigits 10 m)

/-- `⌊log₁₀ q⌋` for `q > 0`, computed from decimal digit counts. -/
def decExp (q : ℚ) : ℤ :=
  if 1 ≤ q then ((Nat.toDigits 10 ⌊q⌋₊).length : ℤ) - 1
  else -((Nat.toDigits 10 (⌈q⁻¹⌉₊ - 1)).length : ℤ)

/-- Strip the trailing zeros of a three-digit mantissa (`Number(...)` drops
them when JavaScript parses the `toPrecision` output back). -/
def stripTrailing (m : ℕ) : ℕ × ℕ :=
  if m % 1000 = 0 then (m / 1000, 3)
  else if m % 100 = 0 then (m / 100, 2)
  else if m % 10 = 0 then (m / 10, 1)
  else (m, 0)

/-- Render `m · 10^e` as a plain decimal numeral, as JavaScript prints the
number obtained from `Number(x.toPrecision(3))`. -/
def renderDecimal (m : ℕ) (e : ℤ) : String :=
  if 0 ≤ e then natStr (m * 10 ^ e.toNat)
  else
    let s := Nat.toDigits 10 m
    let dk := (-e).toNat
    if dk < s.length then
      String.mk (s.take (s.length - dk)) ++ "." ++ String.mk (s.drop (s.length - dk))
    else
      "0." ++ String.mk (List.replicate (dk - s.length) '0') ++ String.mk s

/-- `Number(a.toPrecision(3))` rendered back to a string: round to three
significant digits, drop trailing zeros, print in plain decimal. -/
def toPrecision3 (q : ℚ) : String :=
  if q ≤ 0 then "0"
  else
    let e := decExp q
    let m := (round (q / (10 : ℚ) ^ (e - 2))).toNat
    let p := stripTrailing m
    renderDecimal p.1 (e - 2 + (p.2 : ℤ))

/-- `a.toExponential(2)`: a three-significant-digit mantissa `d.dd` and a
signed decimal exponent. -/
def toExponential2 (q : ℚ) : String :=
  if q ≤ 0 then "0.00e+0"
  else
    let e0 := decExp q
    let m0 := (round (q / (10 : ℚ) ^ (e0 - 2))).toNat
    let m := if m0 = 1000 then 100 else m0
    let e := if m0 = 1000 then e0 + 1 else e0
    let s := Nat.toDigits 10 m
    String.mk (s.take 1) ++ "." ++ String.mk (s.drop 1) ++ "e" ++
      (if 0 ≤ e then "+" else "-") ++ natStr e.natAbs

/-- The magnitude token of a term: scientific notation with two decimals
above 1000, otherwise three significant digits. -/
def formatCoeffMag (a : ℚ) : String :=
  if a > 1000 then toExponential2 a else toPrecision3 a

/-- `// 1. Determine the sign`: a non-first term always gets a `+`/`-`
separator (the `mx-1` span, rendered with surrounding spaces); the first term
gets a bare `-` exactly when its coefficient is negative. -/
def signParts (coeff : ℚ) (isFirstTerm : Bool) : List String :=
  if !isFirstTerm then [if coeff > 0 then " + " else " - "]
  else if coeff < 0 then ["-"]
  else []

/-- `// 3. Determine the variable 'x' and its exponent`: the variable token
appears for power ≥ 1, the exponent annotation (a `<sup>`, rendered `^k`)
only for power ≥ 2. -/
def varParts (power : ℕ) : List String :=
  if power > 0 then "x" :: (if power > 1 then ["^" ++ natStr power] else [])
  else []

/-- One non-skipped term of the formula: sign tokens, then the magnitude
token when `Math.abs(absCoeff - 1) > 1e-9 || power === 0`, then the variable
tokens. -/
def termParts (coeff : ℚ) (power : ℕ) (isFirstTerm : Bool) : List String :=
  signParts coeff isFirstTerm ++
    (if |(|coeff| - 1)| > zeroEps ∨ power = 0 then [formatCoeffMag |coeff|] else []) ++
    varParts power

/-- The token list of `PrettyFormula`: iterate over the reversed coefficient
list (descending power), skipping terms with `|coeff| < 1e-9`. -/
def prettyFormulaParts (coefficients : List ℚ) : List String :=
  coefficients.reverse.enum.foldl
    (fun parts p =>
      if |p.2| < zeroEps then parts
      else parts ++ termParts p.2 (coefficients.reverse.length - 1 - p.1) parts.isEmpty)
    []

/-- The rendered formula of `PrettyFormula`: `f(x) = 0` for an empty or
all-(near-)zero coefficient vector, otherwise `f(x) = ` followed by the
term tokens. -/
def prettyFormula (coefficients : List ℚ) : String :=
  if coefficients.isEmpty then "f(x) = 0"
  else
    let parts := prettyFormulaParts coefficients
    if parts.isEmpty then "f(x) = 0"
    else "f(x) = " ++ String.join parts

end Formatter

section Frame

variable {n : ℕ}

/-- The caller-visible arrays during a `solveLinearSystem` call: the caller's
`matrixA` and `vectorB`, and the private augmented copy `m`.  Every mutating
statement of the source writes only to `m`, which the update functions below
make explicit by only ever replacing the `m` field. -/
structure SolverState (n : ℕ) where
  matrixA : Fin n → Fin n → ℚ
  vectorB : Fin n → ℚ
  m : Fin n → Fin (n + 1) → ℚ

/-- One pivot step over the full state: only the `m` field is replaced; the
`Bool` records whether the step succeeded (`false` models the thrown
`SingularMatrixError`). -/
def gaussStepSt (s : SolverState n) (i : Fin n) : SolverState n × Bool :=
  match gaussStep s.m i with
  | none => (s, false)
  | some m' => ({ s with m := m' }, true)

/-- The elimination loop over the full state, stopping at the first failed
step and returning the state as it stands at that point. -/
def gaussListSt (s : SolverState n) : List (Fin n) → SolverState n × Bool
  | [] => (s, true)
  | i :: rest =>
    if (gaussStepSt s i).2 then gaussListSt (gaussStepSt s i).1 rest
    else gaussStepSt s i

/-- `solveLinearSystem` with the caller's arrays tracked through the call:
the result (`none` on throw) together with the caller-visible `matrixA` and
`vectorB` after the call. -/
def solveLinearSystemTracked (A : Fin n → Fin n → ℚ) (b : Fin n → ℚ) :
    Option (List ℚ) × (Fin n → Fin n → ℚ) × (Fin n → ℚ) :=
  let s := gaussListSt ⟨A, b, augmented A b⟩ (List.finRange n)
  (if s.2 then some ((List.finRange n).map (fun i => s.1.m i (Fin.last n))) else none,
    s.1.matrixA, s.1.vectorB)

lemma gaussListSt_frame (l : List (Fin n)) :
    ∀ s : SolverState n, (gaussListSt s l).1.matrixA = s.matrixA ∧
      (gaussListSt s l).1.vectorB = s.vectorB := by
  induction l with
  | nil => intro s; exact ⟨rfl, rfl⟩
  | cons i rest ih =>
    intro s
    rcases hstep : gaussStep s.m i with - | m'
    · have hst : gaussStepSt s i = (s, false) := by
        unfold gaussStepSt
        rw [hstep]
      simp only [gaussListSt, hst]
      exact ⟨rfl, rfl⟩
    · have hst : gaussStepSt s i = ({ s with m := m' }, true) := by
        unfold gaussStepSt
        rw [hstep]
      simp only [gaussListSt, hst]
      exact ih { s with m := m' }

end Frame

section SweepProofs

lemma sweepStep_none {points : List Point} {method : AutoFitMethod} {st : SweepState}
    {degree : ℕ} (h : calculatePolynomialRegression points degree = none) :
    sweepStep points method st degree = st := by
  unfold sweepStep
  rw [h]

lemma sweepStep_some {points : List Point} {method : AutoFitMethod} {st : SweepState}
    {degree : ℕ} {cs : List ℚ} (h : calculatePolynomialRegression points degree = some cs) :
    sweepStep points method st degree =
      if rssOf points cs ≤ rssTol then
        (if st.bestDegree = -1 then ⟨⊥, (degree : ℤ), cs⟩ else st)
      else if ((scoreOf method points.length (rssOf points cs) (degree + 1) : ℝ) : EReal)
          < st.bestScore then
        ⟨((scoreOf method points.length (rssOf points cs) (degree + 1) : ℝ) : EReal),
          (degree : ℤ), cs⟩
      else st := by
  unfold sweepStep
  rw [h]

lemma natCast_ne_neg_one (d : ℕ) : (d : ℤ) ≠ -1 := by omega

lemma sweepStep_bestDegree_cases (points : List Point) (method : AutoFitMethod)
    (st : SweepState) (degree : ℕ) :
    (sweepStep points method st degree).bestDegree = st.bestDegree ∨
      (sweepStep points method st degree).bestDegree = (degree : ℤ) := by
  rcases h : calculatePolynomialRegression points degree with - | cs
  · rw [sweepStep_none h]
    exact Or.inl rfl
  · rw [sweepStep_some h]
    split_ifs <;> simp

lemma sweepStep_stInv {points : List Point} {method : AutoFitMethod} {st : SweepState}
    (degree : ℕ) (hinv : st.bestDegree = -1 → st.bestScore = ⊤) :
    (sweepStep points method st degree).bestDegree = -1 →
      (sweepStep points method st degree).bestScore = ⊤ := by
  rcases h : calculatePolynomialRegression points degree with - | cs
  · rw [sweepStep_none h]
    exact hinv
  · rw [sweepStep_some h]
    split_ifs <;> intro hd <;>
      first
        | exact hinv hd
        | exact hd.elim

lemma foldl_stInv (points : List Point) (method : AutoFitMethod) (l : List ℕ) :
    ∀ st : SweepState, (st.bestDegree = -1 → st.bestScore = ⊤) →
      ((l.foldl (sweepStep points method) st).bestDegree = -1 →
        (l.foldl (sweepStep points method) st).bestScore = ⊤) := by
  induction l with
  | nil => intro st hinv; exact hinv
  | cons d t ih =>
    intro st hinv
    rw [List.foldl_cons]
    exact ih _ (sweepStep_stInv d hinv)

lemma sweepStep_ne_neg_one {points : List Point} {method : AutoFitMethod} {st : SweepState}
    (degree : ℕ) (h : st.bestDegree ≠ -1) :
    (sweepStep points method st degree).bestDegree ≠ -1 := by
  rcases sweepStep_bestDegree_cases points method st degree with hc | hc
  · rw [hc]; exact h
  · rw [hc]; exact natCast_ne_neg_one degree

lemma foldl_ne_neg_one (points : List Point) (method : AutoFitMethod) (l : List ℕ) :
    ∀ st : SweepState, st.bestDegree ≠ -1 →
      (l.foldl (sweepStep points method) st).bestDegree ≠ -1 := by
  induction l with
  | nil => intro st h; exact h
  | cons d t ih =>
    intro st h
    rw [List.foldl_cons]
    exact ih _ (sweepStep_ne_neg_one d h)

/-- The sweep ends with `bestDegree = -1` exactly when it started there and
every candidate's regression failed. -/
lemma foldl_neg_one_iff (points : List Point) (method : AutoFitMethod) (l : List ℕ) :
    ∀ st : SweepState, (st.bestDegree = -1 → st.bestScore = ⊤) →
      ((l.foldl (sweepStep points method) st).bestDegree = -1 ↔
        st.bestDegree = -1 ∧ ∀ d ∈ l, calculatePolynomialRegression points d = none) := by
  induction l with
  | nil =>
    intro st _
    simp
  | cons d t ih =>
    intro st hinv
    rw [List.foldl_cons]
    rw [ih _ (sweepStep_stInv d hinv)]
    constructor
    · rintro ⟨hstep, ht⟩
      rcases h : calculatePolynomialRegression points d with - | cs
      · rw [sweepStep_none h] at hstep
        exact ⟨hstep, by
          intro d' hd'
          rcases List.mem_cons.mp hd' with rfl | hd'
          · exact h
          · exact ht d' hd'⟩
      · exfalso
        rw [sweepStep_some h] at hstep
        by_cases hrss : rssOf points cs ≤ rssTol
        · rw [if_pos hrss] at hstep
          by_cases hbd : st.bestDegree = -1
          · rw [if_pos hbd] at hstep
            exact natCast_ne_neg_one d hstep
          · rw [if_neg hbd] at hstep
            exact hbd hstep
        · rw [if_neg hrss] at hstep
          by_cases hlt : ((scoreOf method points.length (rssOf points cs) (d + 1) : ℝ) : EReal)
              < st.bestScore
          · rw [if_pos hlt] at hstep
            exact natCast_ne_neg_one d hstep
          · rw [if_neg hlt] at hstep
            have hbd : st.bestDegree = -1 := hstep
            rw [hinv hbd] at hlt
            exact hlt (EReal.coe_lt_top _)
    · rintro ⟨hst, hall⟩
      have hd : calculatePolynomialRegression points d = none :=
        hall d (List.mem_cons_self d t)
      rw [sweepStep_none hd]
      exact ⟨hst, fun d' hd' => hall d' (List.mem_cons_of_mem d hd')⟩

/-- Once a degree has been accepted with score `-Infinity`, a sweep step
changes nothing. -/
lemma sweepStep_absorb {points : List Point} {method : AutoFitMethod} {st : SweepState}
    (degree : ℕ) (hbd : st.bestDegree ≠ -1) (hbot : st.bestScore = ⊥) :
    sweepStep points method st degree = st := by
  rcases h : calculatePolynomialRegression points degree with - | cs
  · exact sweepStep_none h
  · rw [sweepStep_some h]
    rw [if_neg hbd, hbot]
    split_ifs with hrss hlt
    · rfl
    · exact absurd hlt (by simp)
    · rfl

lemma foldl_absorb (points : List Point) (method : AutoFitMethod) (l : List ℕ)
    (st : SweepState) (hbd : st.bestDegree ≠ -1) (hbot : st.bestScore = ⊥) :
    l.foldl (sweepStep points method) st = st := by
  induction l with
  | nil => rfl
  | cons d t ih =>
    rw [List.foldl_cons, sweepStep_absorb d hbd hbot]
    exact ih

lemma candidateDegrees_mem {n d : ℕ} :
    d ∈ candidateDegrees n ↔ 1 ≤ d ∧ d ≤ min 20 (n - 1) := by
  unfold candidateDegrees
  rw [List.mem_range'_1]
  omega

lemma findBestFit_lt2 {points : List Point} (method : AutoFitMethod)
    (h : points.length < 2) :
    findBestFitPolynomial points method = .error .insufficientData := by
  unfold findBestFitPolynomial
  rw [if_pos (by omega)]

lemma findBestFit_ge2 {points : List Point} (method : AutoFitMethod)
    (h : 2 ≤ points.length) :
    findBestFitPolynomial points method =
      if ((candidateDegrees points.length).foldl (sweepStep points method)
            sweepInit).bestDegree = -1 then .error .noModelFound
      else .ok (((candidateDegrees points.length).foldl (sweepStep points method)
            sweepInit).bestDegree,
          ((candidateDegrees points.length).foldl (sweepStep points method)
            sweepInit).bestCoefficients) := by
  unfold findBestFitPolynomial
  rw [if_neg (by omega)]

/-- The sweep state after processing the candidate list `D`, when every
successful candidate in `D` is non-degenerate: either nothing succeeded yet
(state untouched), or the state holds the first candidate of `D` attaining
the minimum score. -/
def Represents (points : List Point) (method : AutoFitMethod) (st : SweepState)
    (D : List ℕ) : Prop :=
  (st = sweepInit ∧ ∀ d ∈ D, calculatePolynomialRegression points d = none) ∨
  (∃ d0 cs0, d0 ∈ D ∧ calculatePolynomialRegression points d0 = some cs0 ∧
    st = ⟨((scoreOf method points.length (rssOf points cs0) (d0 + 1) : ℝ) : EReal),
      (d0 : ℤ), cs0⟩ ∧
    ∀ d ∈ D, ∀ cs, calculatePolynomialRegression points d = some cs →
      scoreOf method points.length (rssOf points cs0) (d0 + 1)
          ≤ scoreOf method points.length (rssOf points cs) (d + 1) ∧
        (scoreOf method points.length (rssOf points cs) (d + 1)
            = scoreOf method points.length (rssOf points cs0) (d0 + 1) → d0 ≤ d))

lemma represents_step {points : List Point} {method : AutoFitMethod} {st : SweepState}
    {D : List ℕ} (d : ℕ)
    (hrep : Represents points method st D)
    (hcross : ∀ e ∈ D, e < d)
    (hgood : ∀ cs, calculatePolynomialRegression points d = some cs →
      rssTol < rssOf points cs) :
    Represents points method (sweepStep points method st d) (D ++ [d]) := by
  rcases hrep with ⟨hst, hnone⟩ | ⟨d0, cs0, hd0, hc0, hst, hmin⟩
  · rcases h : calculatePolynomialRegression points d with - | cs
    · rw [sweepStep_none h]
      refine Or.inl ⟨hst, fun d' hd' => ?_⟩
      rcases List.mem_append.mp hd' with hd' | hd'
      · exact hnone d' hd'
      · rw [List.mem_singleton.mp hd']
        exact h
    · rw [sweepStep_some h, if_neg (not_le.mpr (hgood cs h)), hst]
      rw [if_pos (by
        show _ < (sweepInit.bestScore)
        exact EReal.coe_lt_top _)]
      refine Or.inr ⟨d, cs, List.mem_append_right D (List.mem_singleton_self d),
        h, rfl, ?_⟩
      intro d' hd' cs' hc'
      rcases List.mem_append.mp hd' with hd' | hd'
      · exact absurd hc' (by rw [hnone d' hd']; simp)
      · rw [List.mem_singleton.mp hd'] at hc' ⊢
        obtain rfl : cs' = cs := Option.some_inj.mp (hc'.symm.trans h)
        exact ⟨le_refl _, fun _ => le_refl d⟩
  · rcases h : calculatePolynomialRegression points d with - | cs
    · rw [sweepStep_none h]
      refine Or.inr ⟨d0, cs0, List.mem_append_left _ hd0, hc0, hst, ?_⟩
      intro d' hd' cs' hc'
      rcases List.mem_append.mp hd' with hd' | hd'
      · exact hmin d' hd' cs' hc'
      · rw [List.mem_singleton.mp hd'] at hc'
        exact absurd hc' (by rw [h]; simp)
    · rw [sweepStep_some h, if_neg (not_le.mpr (hgood cs h)), hst]
      by_cases hlt : scoreOf method points.length (rssOf points cs) (d + 1)
          < scoreOf method points.length (rssOf points cs0) (d0 + 1)
      · rw [if_pos (by
          show ((scoreOf method points.length (rssOf points cs) (d + 1) : ℝ) : EReal)
            < ((scoreOf method points.length (rssOf points cs0) (d0 + 1) : ℝ) : EReal)
          exact_mod_cast hlt)]
        refine Or.inr ⟨d, cs, List.mem_append_right D (List.mem_singleton_self d),
          h, rfl, ?_⟩
        intro d' hd' cs' hc'
        rcases List.mem_append.mp hd' with hd' | hd'
        · obtain ⟨hle, -⟩ := hmin d' hd' cs' hc'
          have hlt' := lt_of_lt_of_le hlt hle
          exact ⟨le_of_lt hlt', fun heq => absurd heq (ne_of_gt hlt')⟩
        · rw [List.mem_singleton.mp hd'] at hc' ⊢
          obtain rfl : cs' = cs := Option.some_inj.mp (hc'.symm.trans h)
          exact ⟨le_refl _, fun _ => le_refl d⟩
      · rw [if_neg (by
          show ¬ ((scoreOf method points.length (rssOf points cs) (d + 1) : ℝ) : EReal)
            < ((scoreOf method points.length (rssOf points cs0) (d0 + 1) : ℝ) : EReal)
          exact_mod_cast hlt)]
        refine Or.inr ⟨d0, cs0, List.mem_append_left _ hd0, hc0, rfl, ?_⟩
        intro d' hd' cs' hc'
        rcases List.mem_append.mp hd' with hd' | hd'
        · exact hmin d' hd' cs' hc'
        · rw [List.mem_singleton.mp hd'] at hc' ⊢
          obtain rfl : cs' = cs := Option.some_inj.mp (hc'.symm.trans h)
          exact ⟨not_lt.mp hlt, fun _ => le_of_lt (hcross d0 hd0)⟩

lemma represents_foldl (points : List Point) (method : AutoFitMethod) :
    ∀ (l D : List ℕ) (st : SweepState),
      Represents points method st D →
      (∀ e ∈ D, ∀ f ∈ l, e < f) → l.Pairwise (· < ·) →
      (∀ d ∈ l, ∀ cs, calculatePolynomialRegression points d = some cs →
        rssTol < rssOf points cs) →
      Represents points method (l.foldl (sweepStep points method) st) (D ++ l) := by
  intro l
  induction l with
  | nil =>
    intro D st hrep _ _ _
    rw [List.foldl_nil, List.append_nil]
    exact hrep
  | cons d t ih =>
    intro D st hrep hcross hpair hgood
    rw [List.foldl_cons]
    have hstep := represents_step d hrep
      (fun e he => hcross e he d (List.mem_cons_self d t))
      (hgood d (List.mem_cons_self d t))
    have hcross' : ∀ e ∈ D ++ [d], ∀ f ∈ t, e < f := by
      intro e he f hf
      rcases List.mem_append.mp he with he | he
      · exact hcross e he f (List.mem_cons_of_mem d hf)
      · rw [List.mem_singleton.mp he]
        exact (List.pairwise_cons.mp hpair).1 f hf
    have := ih (D ++ [d]) (sweepStep points method st d) hstep hcross'
      (List.pairwise_cons.mp hpair).2
      (fun d' hd' cs hc => hgood d' (List.mem_cons_of_mem d hd') cs hc)
    rw [List.append_assoc] at this
    exact this

lemma candidateDegrees_pairwise (n : ℕ) : (candidateDegrees n).Pairwise (· < ·) := by
  unfold candidateDegrees
  have : ∀ (s len : ℕ), (List.range' s len).Pairwise (· < ·) := by
    intro s len
    induction len generalizing s with
    | zero => exact List.Pairwise.nil
    | succ k ih =>
      rw [List.range'_succ]
      refine List.pairwise_cons.mpr ⟨?_, ih (s + 1)⟩
      intro a ha
      have := List.mem_range'_1.mp ha
      omega
  exact this 1 _

end SweepProofs

section Claims

set_option maxRecDepth 8000

/-- Claim C1 (corrected), counterexample to the claim as stated: the points
`(0, 0)` and `(1/100000, 1)` have pairwise distinct x-values and are `d + 1`
many for degree `d = 1`, yet `calculatePolynomialRegression` does not return
a coefficient vector: after the first elimination step the remaining pivot of
the normal-equation system is `5·10⁻¹¹`, below the fixed `1e-10` tolerance,
so the solver throws `SingularMatrixError`. -/
theorem claim1_cex :
    calculatePolynomialRegression [((0 : ℚ), (0 : ℚ)), (1 / 100000, 1)] 1 = none ∧
    List.Pairwise (fun p q : Point => p.1 ≠ q.1) [((0 : ℚ), (0 : ℚ)), (1 / 100000, 1)] ∧
    ([((0 : ℚ), (0 : ℚ)), (1 / 100000, 1)] : List Point).length = 1 + 1 :=
  of_decide_eq_true (by with_unfolding_all rfl)

/-- Claim C1 (amended): whenever `calculatePolynomialRegression(points, d)`
returns a coefficient vector, that vector has length `d + 1`, solves the
normal equations `XtX · c = XtY` of the design matrix `X[i][j] = x_i^j`, and
minimises the total squared residual `Σᵢ (yᵢ − Σⱼ c[j]·xᵢ^j)²` over all
coefficient vectors of length `d + 1`. -/
theorem claim1_normal_equations_minimize {points : List Point} {degree : ℕ} {cs : List ℚ}
    (h : calculatePolynomialRegression points degree = some cs) :
    cs.length = degree + 1 ∧
    (∃ c : Fin (degree + 1) → ℚ, cs = List.ofFn c ∧
      ∀ j, ∑ k, gramXtX points degree j k * c k = momXtY points degree j) ∧
    ∀ cs' : List ℚ, cs'.length = degree + 1 → rssOf points cs ≤ rssOf points cs' :=
  calcReg_spec h

/-- Witness for C1's amended theorem at the concrete points `(0,0)`, `(1,1)`
and degree 1: the regression returns `[0, 1]` (the exact line `y = x`) and
the theorem's conclusions hold there. -/
theorem claim1_wit :
    calculatePolynomialRegression [((0 : ℚ), (0 : ℚ)), (1, 1)] 1 = some [0, 1] ∧
    (([0, 1] : List ℚ).length = 1 + 1 ∧
      (∃ c : Fin (1 + 1) → ℚ, ([0, 1] : List ℚ) = List.ofFn c ∧
        ∀ j, ∑ k, gramXtX [((0 : ℚ), (0 : ℚ)), (1, 1)] 1 j k * c k
          = momXtY [((0 : ℚ), (0 : ℚ)), (1, 1)] 1 j) ∧
      ∀ cs' : List ℚ, cs'.length = 1 + 1 →
        rssOf [((0 : ℚ), (0 : ℚ)), (1, 1)] [0, 1] ≤ rssOf [((0 : ℚ), (0 : ℚ)), (1, 1)] cs') := by
  have h : calculatePolynomialRegression [((0 : ℚ), (0 : ℚ)), (1, 1)] 1 = some [0, 1] :=
    of_decide_eq_true (by with_unfolding_all rfl)
  exact ⟨h, claim1_normal_equations_minimize h⟩

/-- Claim C2: whenever `solveLinearSystem(A, b)` returns (no elimination step
met a below-tolerance pivot), the returned list has length `n` and is the
value table of a vector `x` with `A·x = b`: the result of the full
Gauss-Jordan reduction read off the augmented column is an exact solution. -/
theorem claim2_solver_correct {n : ℕ} {A : Fin n → Fin n → ℚ} {b : Fin n → ℚ}
    {xs : List ℚ} (h : solveLinearSystem A b = some xs) :
    xs.length = n ∧
    ∃ x : Fin n → ℚ, xs = List.ofFn x ∧ ∀ r, ∑ j : Fin n, A r j * x j = b r := by
  obtain ⟨x, hxs, hsol⟩ := solveLinearSystem_some h
  exact ⟨by rw [hxs, List.length_ofFn], x, hxs, hsol⟩

/-- Witness for C2 at the concrete system `2x + y = 3`, `x + 3y = 5`: the
solver returns `[4/5, 7/5]` and the theorem's conclusions hold there. -/
theorem claim2_wit :
    solveLinearSystem (n := 2) (fun i j => !![(2 : ℚ), 1; 1, 3] i j)
      (fun i => ![(3 : ℚ), 5] i) = some [4 / 5, 7 / 5] ∧
    (([4 / 5, 7 / 5] : List ℚ).length = 2 ∧
      ∃ x : Fin 2 → ℚ, ([4 / 5, 7 / 5] : List ℚ) = List.ofFn x ∧
        ∀ r, ∑ j : Fin 2, !![(2 : ℚ), 1; 1, 3] r j * x j = ![(3 : ℚ), 5] r) := by
  have h : solveLinearSystem (n := 2) (fun i j => !![(2 : ℚ), 1; 1, 3] i j)
      (fun i => ![(3 : ℚ), 5] i) = some [4 / 5, 7 / 5] :=
    of_decide_eq_true (by with_unfolding_all rfl)
  exact ⟨h, claim2_solver_correct h⟩

/-- Claim C3: `solveLinearSystem` fails exactly when, at some pivot column
`i`, the selected pivot of the partially reduced matrix has absolute value
below the fixed tolerance `1e-10`; and the selected pivot row is a row `≥ i`
whose entry in column `i` has the largest absolute value among rows
`i, …, n-1` (absolute comparison against the fixed epsilon, not relative). -/
theorem claim3_singular_iff {n : ℕ} (A : Fin n → Fin n → ℚ) (b : Fin n → ℚ) :
    (solveLinearSystem A b = none ↔
      ∃ i : Fin n, ∃ m', gaussUpTo (augmented A b) (i : ℕ) = some m' ∧
        |m' (findPivotRow m' i) i.castSucc| < pivotTol) ∧
    (∀ (m' : Fin n → Fin (n + 1) → ℚ) (i k : Fin n), (i : ℕ) ≤ (k : ℕ) →
      |m' k i.castSucc| ≤ |m' (findPivotRow m' i) i.castSucc|) ∧
    (∀ (m' : Fin n → Fin (n + 1) → ℚ) (i : Fin n), (i : ℕ) ≤ ((findPivotRow m' i) : ℕ)) :=
  ⟨solveLinearSystem_none_iff A b,
    fun m' i k hik => findPivotRow_max m' i k hik,
    fun m' i => findPivotRow_ge m' i⟩

/-- Witness for C3 at the singular system with rows `(1, 1)` and `(1, 1)`:
the solver throws, and the failure is certified by a below-tolerance pivot at
some column of the partially reduced matrix. -/
theorem claim3_wit :
    solveLinearSystem (n := 2) (fun i j => !![(1 : ℚ), 1; 1, 1] i j)
      (fun i => ![(1 : ℚ), 2] i) = none ∧
    ∃ i : Fin 2, ∃ m',
      gaussUpTo (augmented (fun i j => !![(1 : ℚ), 1; 1, 1] i j) (fun i => ![(1 : ℚ), 2] i))
        (i : ℕ) = some m' ∧
      |m' (findPivotRow m' i) i.castSucc| < pivotTol := by
  have h : solveLinearSystem (n := 2) (fun i j => !![(1 : ℚ), 1; 1, 1] i j)
      (fun i => ![(1 : ℚ), 2] i) = none :=
    of_decide_eq_true (by with_unfolding_all rfl)
  exact ⟨h, (claim3_singular_iff (fun i j => !![(1 : ℚ), 1; 1, 1] i j)
    (fun i => ![(1 : ℚ), 2] i)).1.mp h⟩

/-- Claim C4: `solveLinearSystem` never mutates the caller's matrix or
vector: whether the call returns a solution or throws, the caller-visible
`matrixA` and `vectorB` after the call equal their values before it — every
write of the algorithm targets the private augmented copy `m`. -/
theorem claim4_no_mutation {n : ℕ} (A : Fin n → Fin n → ℚ) (b : Fin n → ℚ) :
    (solveLinearSystemTracked A b).2.1 = A ∧ (solveLinearSystemTracked A b).2.2 = b := by
  obtain ⟨hA, hb⟩ := gaussListSt_frame (List.finRange n) (⟨A, b, augmented A b⟩ : SolverState n)
  exact ⟨hA, hb⟩

/-- Claim C5: `findBestFitPolynomial` throws `InsufficientDataError` exactly
when the candidate range is empty, i.e. when `n < 2`; the candidate degrees
are `1 … min(20, n−1)`, listed in strictly ascending order; and in automatic
mode the caller (`handleTrain`) rejects inputs with fewer than 2 points
before invoking the sweep. -/
theorem claim5_insufficient_data (points : List Point) (method : AutoFitMethod) :
    (findBestFitPolynomial points method = .error .insufficientData ↔ points.length < 2) ∧
    (∀ d, d ∈ candidateDegrees points.length ↔ 1 ≤ d ∧ d ≤ min 20 (points.length - 1)) ∧
    (candidateDegrees points.length).Pairwise (· < ·) ∧
    (points.length < 2 → handleTrainAuto points method = .error .insufficientData) := by
  refine ⟨?_, fun d => candidateDegrees_mem, candidateDegrees_pairwise _, fun h2 => ?_⟩
  · by_cases h2 : points.length < 2
    · rw [findBestFit_lt2 method h2]
      exact ⟨fun _ => h2, fun _ => rfl⟩
    · rw [findBestFit_ge2 method (by omega)]
      constructor
      · intro h
        by_cases hbd : ((candidateDegrees points.length).foldl (sweepStep points method)
            sweepInit).bestDegree = -1
        · rw [if_pos hbd] at h
          exact absurd (Except.error.inj h) (by simp)
        · rw [if_neg hbd] at h
          exact absurd h (by simp)
      · intro h
        exact absurd h h2
  · unfold handleTrainAuto
    rw [if_pos h2]

/-- Claim C6: during the automatic sweep a degree whose regression throws
`SingularMatrixError` is skipped — the loop state is unchanged and the sweep
continues — and `findBestFitPolynomial` throws `NoModelFoundError` exactly
when every candidate degree's regression failed. -/
theorem claim6_no_model_found (points : List Point) (method : AutoFitMethod)
    (h2 : 2 ≤ points.length) :
    (∀ (st : SweepState) (d : ℕ), calculatePolynomialRegression points d = none →
      sweepStep points method st d = st) ∧
    (findBestFitPolynomial points method = .error .noModelFound ↔
      ∀ d ∈ candidateDegrees points.length,
        calculatePolynomialRegression points d = none) := by
  refine ⟨fun st d h => sweepStep_none h, ?_⟩
  rw [findBestFit_ge2 method h2]
  have hiff := foldl_neg_one_iff points method (candidateDegrees points.length)
    sweepInit (fun _ => rfl)
  by_cases hbd : ((candidateDegrees points.length).foldl (sweepStep points method)
      sweepInit).bestDegree = -1
  · rw [if_pos hbd]
    exact ⟨fun _ => (hiff.mp hbd).2, fun _ => rfl⟩
  · rw [if_neg hbd]
    constructor
    · intro h
      exact absurd h (by simp)
    · intro hall
      exact absurd (hiff.mpr ⟨rfl, hall⟩) hbd

/-- Witness for C6 at three points sharing `x = 0`: both candidate degrees
produce a singular normal-equation system, so the sweep skips every degree
and `findBestFitPolynomial` throws `NoModelFoundError`. -/
theorem claim6_wit :
    2 ≤ ([((0 : ℚ), (0 : ℚ)), (0, 1), (0, 2)] : List Point).length ∧
    ((∀ (st : SweepState) (d : ℕ),
        calculatePolynomialRegression [((0 : ℚ), (0 : ℚ)), (0, 1), (0, 2)] d = none →
        sweepStep [((0 : ℚ), (0 : ℚ)), (0, 1), (0, 2)] .BIC st d = st) ∧
      (findBestFitPolynomial [((0 : ℚ), (0 : ℚ)), (0, 1), (0, 2)] .BIC
          = .error .noModelFound ↔
        ∀ d ∈ candidateDegrees ([((0 : ℚ), (0 : ℚ)), (0, 1), (0, 2)] : List Point).length,
          calculatePolynomialRegression [((0 : ℚ), (0 : ℚ)), (0, 1), (0, 2)] d = none)) :=
  ⟨of_decide_eq_true (by with_unfolding_all rfl),
    claim6_no_model_found [((0 : ℚ), (0 : ℚ)), (0, 1), (0, 2)] .BIC
      (of_decide_eq_true (by with_unfolding_all rfl))⟩

/-- Claim C7: if, with no degree accepted yet, a candidate degree `d`
achieves `RSS ≤ 1e-10`, the sweep immediately accepts it with score
`-Infinity`; the remaining degrees are still scanned but cannot displace it,
so `findBestFitPolynomial` returns exactly this first near-perfect degree
with its coefficients. -/
theorem claim7_perfect_fit_short_circuit (points : List Point) (method : AutoFitMethod)
    (l1 l2 : List ℕ) (d : ℕ) (cs : List ℚ)
    (h2 : 2 ≤ points.length)
    (hsplit : candidateDegrees points.length = l1 ++ d :: l2)
    (hbefore : (l1.foldl (sweepStep points method) sweepInit).bestDegree = -1)
    (hcalc : calculatePolynomialRegression points d = some cs)
    (hrss : rssOf points cs ≤ rssTol) :
    sweepStep points method (l1.foldl (sweepStep points method) sweepInit) d
      = ⟨⊥, (d : ℤ), cs⟩ ∧
    findBestFitPolynomial points method = .ok ((d : ℤ), cs) := by
  have hstep : sweepStep points method (l1.foldl (sweepStep points method) sweepInit) d
      = ⟨⊥, (d : ℤ), cs⟩ := by
    rw [sweepStep_some hcalc, if_pos hrss, if_pos hbefore]
  refine ⟨hstep, ?_⟩
  rw [findBestFit_ge2 method h2, hsplit, List.foldl_append, List.foldl_cons, hstep,
    foldl_absorb points method l2 _ (natCast_ne_neg_one d) rfl]
  rw [if_neg (natCast_ne_neg_one d)]

/-- Witness for C7 at the points `(0,0)`, `(1,1)`: the single candidate
degree 1 fits perfectly (`RSS = 0`), is accepted with score `-Infinity`, and
is returned. -/
theorem claim7_wit :
    2 ≤ ([((0 : ℚ), (0 : ℚ)), (1, 1)] : List Point).length ∧
    candidateDegrees ([((0 : ℚ), (0 : ℚ)), (1, 1)] : List Point).length = [] ++ 1 :: [] ∧
    (([] : List ℕ).foldl (sweepStep [((0 : ℚ), (0 : ℚ)), (1, 1)] .BIC)
      sweepInit).bestDegree = -1 ∧
    calculatePolynomialRegression [((0 : ℚ), (0 : ℚ)), (1, 1)] 1 = some [0, 1] ∧
    rssOf [((0 : ℚ), (0 : ℚ)), (1, 1)] [0, 1] ≤ rssTol ∧
    (sweepStep [((0 : ℚ), (0 : ℚ)), (1, 1)] .BIC
        (([] : List ℕ).foldl (sweepStep [((0 : ℚ), (0 : ℚ)), (1, 1)] .BIC) sweepInit) 1
      = ⟨⊥, (1 : ℤ), [0, 1]⟩ ∧
      findBestFitPolynomial [((0 : ℚ), (0 : ℚ)), (1, 1)] .BIC = .ok ((1 : ℤ), [0, 1])) := by
  have hcalc : calculatePolynomialRegression [((0 : ℚ), (0 : ℚ)), (1, 1)] 1 = some [0, 1] :=
    of_decide_eq_true (by with_unfolding_all rfl)
  have hrss : rssOf [((0 : ℚ), (0 : ℚ)), (1, 1)] [0, 1] ≤ rssTol :=
    of_decide_eq_true (by with_unfolding_all rfl)
  have hsplit : candidateDegrees ([((0 : ℚ), (0 : ℚ)), (1, 1)] : List Point).length
      = [] ++ 1 :: [] := of_decide_eq_true (by with_unfolding_all rfl)
  exact ⟨of_decide_eq_true (by with_unfolding_all rfl), hsplit, rfl, hcalc, hrss,
    claim7_perfect_fit_short_circuit [((0 : ℚ), (0 : ℚ)), (1, 1)] .BIC [] [] 1 [0, 1]
      (of_decide_eq_true (by with_unfolding_all rfl)) hsplit rfl hcalc hrss⟩

/-- Claim C8: for non-degenerate candidates the sweep scores are the AIC and
BIC formulas `n·ln(RSS/n) + 2k` and `n·ln(RSS/n) + k·ln(n)` with `k = d + 1`,
and — when every successful candidate is non-degenerate and at least one
succeeds — `findBestFitPolynomial` returns a successful candidate whose score
is minimal, with an exact tie in score won by the lower degree. -/
theorem claim8_information_criterion (points : List Point) (method : AutoFitMethod)
    (h2 : 2 ≤ points.length)
    (hgood : ∀ d ∈ candidateDegrees points.length, ∀ cs,
      calculatePolynomialRegression points d = some cs → rssTol < rssOf points cs)
    (hsucc : ∃ d ∈ candidateDegrees points.length,
      calculatePolynomialRegression points d ≠ none) :
    (∀ (n k : ℕ) (rss : ℚ),
      scoreOf .AIC n rss k = (n : ℝ) * Real.log ((rss : ℝ) / (n : ℝ)) + 2 * (k : ℝ) ∧
      scoreOf .BIC n rss k
        = (n : ℝ) * Real.log ((rss : ℝ) / (n : ℝ)) + (k : ℝ) * Real.log (n : ℝ)) ∧
    ∃ d0 cs0, d0 ∈ candidateDegrees points.length ∧
      calculatePolynomialRegression points d0 = some cs0 ∧
      findBestFitPolynomial points method = .ok ((d0 : ℤ), cs0) ∧
      ∀ d ∈ candidateDegrees points.length, ∀ cs,
        calculatePolynomialRegression points d = some cs →
          scoreOf method points.length (rssOf points cs0) (d0 + 1)
            ≤ scoreOf method points.length (rssOf points cs) (d + 1) ∧
          (scoreOf method points.length (rssOf points cs) (d + 1)
            = scoreOf method points.length (rssOf points cs0) (d0 + 1) → d0 ≤ d) := by
  constructor
  · intro n k rss
    constructor
    · unfold scoreOf
      rw [if_pos rfl]
    · unfold scoreOf
      rw [if_neg (by intro hcontra; exact AutoFitMethod.noConfusion hcontra)]
  · have hrep := represents_foldl points method (candidateDegrees points.length) [] sweepInit
      (Or.inl ⟨rfl, by simp⟩) (by simp) (candidateDegrees_pairwise _) hgood
    rw [List.nil_append] at hrep
    rcases hrep with ⟨-, hnone⟩ | ⟨d0, cs0, hd0, hc0, hstate, hmin⟩
    · obtain ⟨d, hd, hne⟩ := hsucc
      exact absurd (hnone d hd) hne
    · refine ⟨d0, cs0, hd0, hc0, ?_, hmin⟩
      rw [findBestFit_ge2 method h2, hstate]
      rw [if_neg (natCast_ne_neg_one d0)]

/-- Witness for C8 at the four points `(0,0)`, `(1,1)`, `(1,2)`, `(2,5)`
(duplicate `x = 1`, so no candidate fits perfectly and degree 3 is
singular): degrees 1 and 2 succeed with `RSS` of `3/2` and `1/2`, and
`findBestFitPolynomial` returns the AIC-minimal candidate. -/
theorem claim8_wit :
    2 ≤ ([((0 : ℚ), (0 : ℚ)), (1, 1), (1, 2), (2, 5)] : List Point).length ∧
    (∀ d ∈ candidateDegrees ([((0 : ℚ), (0 : ℚ)), (1, 1), (1, 2), (2, 5)] : List Point).length,
      ∀ cs, calculatePolynomialRegression [((0 : ℚ), (0 : ℚ)), (1, 1), (1, 2), (2, 5)] d
          = some cs → rssTol < rssOf [((0 : ℚ), (0 : ℚ)), (1, 1), (1, 2), (2, 5)] cs) ∧
    (∃ d ∈ candidateDegrees ([((0 : ℚ), (0 : ℚ)), (1, 1), (1, 2), (2, 5)] : List Point).length,
      calculatePolynomialRegression [((0 : ℚ), (0 : ℚ)), (1, 1), (1, 2), (2, 5)] d ≠ none) ∧
    ∃ d0 cs0,
      d0 ∈ candidateDegrees ([((0 : ℚ), (0 : ℚ)), (1, 1), (1, 2), (2, 5)] : List Point).length ∧
      calculatePolynomialRegression [((0 : ℚ), (0 : ℚ)), (1, 1), (1, 2), (2, 5)] d0
        = some cs0 ∧
      findBestFitPolynomial [((0 : ℚ), (0 : ℚ)), (1, 1), (1, 2), (2, 5)] .AIC
        = .ok ((d0 : ℤ), cs0) ∧
      ∀ d ∈ candidateDegrees ([((0 : ℚ), (0 : ℚ)), (1, 1), (1, 2), (2, 5)] : List Point).length,
        ∀ cs, calculatePolynomialRegression [((0 : ℚ), (0 : ℚ)), (1, 1), (1, 2), (2, 5)] d
            = some cs →
          scoreOf .AIC 4 (rssOf [((0 : ℚ), (0 : ℚ)), (1, 1), (1, 2), (2, 5)] cs0) (d0 + 1)
            ≤ scoreOf .AIC 4 (rssOf [((0 : ℚ), (0 : ℚ)), (1, 1), (1, 2), (2, 5)] cs) (d + 1) ∧
          (scoreOf .AIC 4 (rssOf [((0 : ℚ), (0 : ℚ)), (1, 1), (1, 2), (2, 5)] cs) (d + 1)
            = scoreOf .AIC 4 (rssOf [((0 : ℚ), (0 : ℚ)), (1, 1), (1, 2), (2, 5)] cs0) (d0 + 1)
            → d0 ≤ d) := by
  have h1 : calculatePolynomialRegression [((0 : ℚ), (0 : ℚ)), (1, 1), (1, 2), (2, 5)] 1
      = some [-1 / 2, 5 / 2] := of_decide_eq_true (by with_unfolding_all rfl)
  have hr1 : rssTol < rssOf [((0 : ℚ), (0 : ℚ)), (1, 1), (1, 2), (2, 5)] [-1 / 2, 5 / 2] :=
    of_decide_eq_true (by with_unfolding_all rfl)
  have h2c : calculatePolynomialRegression [((0 : ℚ), (0 : ℚ)), (1, 1), (1, 2), (2, 5)] 2
      = some [0, 1 / 2, 1] := of_decide_eq_true (by with_unfolding_all rfl)
  have hr2 : rssTol < rssOf [((0 : ℚ), (0 : ℚ)), (1, 1), (1, 2), (2, 5)] [0, 1 / 2, 1] :=
    of_decide_eq_true (by with_unfolding_all rfl)
  have h3 : calculatePolynomialRegression [((0 : ℚ), (0 : ℚ)), (1, 1), (1, 2), (2, 5)] 3
      = none := of_decide_eq_true (by with_unfolding_all rfl)
  have hgood : ∀ d ∈ candidateDegrees
      ([((0 : ℚ), (0 : ℚ)), (1, 1), (1, 2), (2, 5)] : List Point).length,
      ∀ cs, calculatePolynomialRegression [((0 : ℚ), (0 : ℚ)), (1, 1), (1, 2), (2, 5)] d
          = some cs → rssTol < rssOf [((0 : ℚ), (0 : ℚ)), (1, 1), (1, 2), (2, 5)] cs := by
    intro d hd cs hcs
    have hd3 : d = 1 ∨ d = 2 ∨ d = 3 := by
      have := candidateDegrees_mem.mp hd
      simp only [List.length_cons, List.length_nil] at this
      omega
    rcases hd3 with rfl | rfl | rfl
    · rw [h1] at hcs
      obtain rfl : [-1 / 2, 5 / 2] = cs := Option.some_inj.mp hcs
      exact hr1
    · rw [h2c] at hcs
      obtain rfl : [0, 1 / 2, 1] = cs := Option.some_inj.mp hcs
      exact hr2
    · rw [h3] at hcs
      exact absurd hcs (by simp)
  have hsucc : ∃ d ∈ candidateDegrees
      ([((0 : ℚ), (0 : ℚ)), (1, 1), (1, 2), (2, 5)] : List Point).length,
      calculatePolynomialRegression [((0 : ℚ), (0 : ℚ)), (1, 1), (1, 2), (2, 5)] d ≠ none := by
    refine ⟨1, of_decide_eq_true (by with_unfolding_all rfl), ?_⟩
    rw [h1]
    simp
  exact ⟨of_decide_eq_true (by with_unfolding_all rfl), hgood, hsucc,
    (claim8_information_criterion [((0 : ℚ), (0 : ℚ)), (1, 1), (1, 2), (2, 5)] .AIC
      (of_decide_eq_true (by with_unfolding_all rfl)) hgood hsucc).2⟩

/-- Claim C9: the formatted formula shows the constant term's magnitude
unconditionally, suppresses a non-constant term's magnitude token exactly
when the coefficient's absolute value is within `1e-9` of 1, and on the
concrete vectors `[0, 0, 1]` and `[2, -3]` renders exactly `f(x) = x^2` and
`f(x) = -3x + 2` (descending powers, explicit sign and magnitude on both
terms of the latter). -/
theorem claim9_formatter :
    prettyFormula [0, 0, 1] = "f(x) = x^2" ∧
    prettyFormula [2, -3] = "f(x) = -3x + 2" ∧
    (∀ (coeff : ℚ) (isFirst : Bool),
      termParts coeff 0 isFirst = signParts coeff isFirst ++ [formatCoeffMag |coeff|]) ∧
    (∀ (coeff : ℚ) (power : ℕ) (isFirst : Bool), 0 < power →
      |(|coeff| - 1)| ≤ zeroEps →
      termParts coeff power isFirst = signParts coeff isFirst ++ varParts power) ∧
    (∀ (coeff : ℚ) (power : ℕ) (isFirst : Bool), 0 < power →
      zeroEps < |(|coeff| - 1)| →
      termParts coeff power isFirst
        = signParts coeff isFirst ++ [formatCoeffMag |coeff|] ++ varParts power) := by
  refine ⟨of_decide_eq_true (by with_unfolding_all rfl),
    of_decide_eq_true (by with_unfolding_all rfl), ?_, ?_, ?_⟩
  · intro coeff isFirst
    unfold termParts
    rw [if_pos (Or.inr rfl)]
    unfold varParts
    rw [if_neg (by omega), List.append_nil]
  · intro coeff power isFirst hpow hone
    unfold termParts
    rw [if_neg (by
      rintro (hgt | hzero)
      · exact absurd hone (not_le.mpr hgt)
      · omega)]
    rw [List.append_nil]
  · intro coeff power isFirst hpow hone
    unfold termParts
    rw [if_pos (Or.inl hone)]

/-- Claim C10: a near-perfect fit (`RSS ≤ 1e-10`) found after some earlier
degree has already been accepted is skipped without being scored — the sweep
state is unchanged, so the remaining sweep proceeds as if the degree were
absent and the earlier model remains the accepted one. -/
theorem claim10_late_perfect_fit_skipped (points : List Point) (method : AutoFitMethod)
    (l1 l2 : List ℕ) (d : ℕ) (cs : List ℚ)
    (hsplit : candidateDegrees points.length = l1 ++ d :: l2)
    (hbefore : (l1.foldl (sweepStep points method) sweepInit).bestDegree ≠ -1)
    (hcalc : calculatePolynomialRegression points d = some cs)
    (hrss : rssOf points cs ≤ rssTol) :
    sweepStep points method (l1.foldl (sweepStep points method) sweepInit) d
      = l1.foldl (sweepStep points method) sweepInit ∧
    (candidateDegrees points.length).foldl (sweepStep points method) sweepInit
      = l2.foldl (sweepStep points method)
          (l1.foldl (sweepStep points method) sweepInit) := by
  have hstep : sweepStep points method (l1.foldl (sweepStep points method) sweepInit) d
      = l1.foldl (sweepStep points method) sweepInit := by
    rw [sweepStep_some hcalc, if_pos hrss, if_neg hbefore]
  exact ⟨hstep, by rw [hsplit, List.foldl_append, List.foldl_cons, hstep]⟩

/-- Witness for C10 at the points `(0,0)`, `(1,1)`, `(2,4)`: degree 1 is
accepted with a finite BIC score (`RSS = 2/3`), then degree 2 fits perfectly
(`RSS = 0`) but is skipped, leaving the degree-1 state untouched. -/
theorem claim10_wit :
    candidateDegrees ([((0 : ℚ), (0 : ℚ)), (1, 1), (2, 4)] : List Point).length
      = [1] ++ 2 :: [] ∧
    (([1] : List ℕ).foldl (sweepStep [((0 : ℚ), (0 : ℚ)), (1, 1), (2, 4)] .BIC)
      sweepInit).bestDegree ≠ -1 ∧
    calculatePolynomialRegression [((0 : ℚ), (0 : ℚ)), (1, 1), (2, 4)] 2 = some [0, 0, 1] ∧
    rssOf [((0 : ℚ), (0 : ℚ)), (1, 1), (2, 4)] [0, 0, 1] ≤ rssTol ∧
    (sweepStep [((0 : ℚ), (0 : ℚ)), (1, 1), (2, 4)] .BIC
        (([1] : List ℕ).foldl (sweepStep [((0 : ℚ), (0 : ℚ)), (1, 1), (2, 4)] .BIC)
          sweepInit) 2
      = ([1] : List ℕ).foldl (sweepStep [((0 : ℚ), (0 : ℚ)), (1, 1), (2, 4)] .BIC)
          sweepInit ∧
    (candidateDegrees ([((0 : ℚ), (0 : ℚ)), (1, 1), (2, 4)] : List Point).length).foldl
        (sweepStep [((0 : ℚ), (0 : ℚ)), (1, 1), (2, 4)] .BIC) sweepInit
      = ([] : List ℕ).foldl (sweepStep [((0 : ℚ), (0 : ℚ)), (1, 1), (2, 4)] .BIC)
          (([1] : List ℕ).foldl (sweepStep [((0 : ℚ), (0 : ℚ)), (1, 1), (2, 4)] .BIC)
            sweepInit)) := by
  have hcalc1 : calculatePolynomialRegression [((0 : ℚ), (0 : ℚ)), (1, 1), (2, 4)] 1
      = some [-1 / 3, 2] := of_decide_eq_true (by with_unfolding_all rfl)
  have hrss1 : ¬ (rssOf [((0 : ℚ), (0 : ℚ)), (1, 1), (2, 4)] [-1 / 3, 2] ≤ rssTol) :=
    of_decide_eq_true (by with_unfolding_all rfl)
  have hbefore : (([1] : List ℕ).foldl
      (sweepStep [((0 : ℚ), (0 : ℚ)), (1, 1), (2, 4)] .BIC) sweepInit).bestDegree ≠ -1 := by
    rw [List.foldl_cons, List.foldl_nil, sweepStep_some hcalc1, if_neg hrss1,
      show sweepInit.bestScore = (⊤ : EReal) from rfl, if_pos (EReal.coe_lt_top _)]
    exact of_decide_eq_true (by with_unfolding_all rfl)
  have hsplit : candidateDegrees ([((0 : ℚ), (0 : ℚ)), (1, 1), (2, 4)] : List Point).length
      = [1] ++ 2 :: [] := of_decide_eq_true (by with_unfolding_all rfl)
  have hcalc2 : calculatePolynomialRegression [((0 : ℚ), (0 : ℚ)), (1, 1), (2, 4)] 2
      = some [0, 0, 1] := of_decide_eq_true (by with_unfolding_all rfl)
  have hrss2 : rssOf [((0 : ℚ), (0 : ℚ)), (1, 1), (2, 4)] [0, 0, 1] ≤ rssTol :=
    of_decide_eq_true (by with_unfolding_all rfl)
  exact ⟨hsplit, hbefore, hcalc2, hrss2,
    claim10_late_perfect_fit_skipped [((0 : ℚ), (0 : ℚ)), (1, 1), (2, 4)] .BIC [1] [] 2
      [0, 0, 1] hsplit hbefore hcalc2 hrss2⟩

end Claims

end PolyReg
